import Mathlib

/-!
Verification of the Mancala engine (`mancala_ai/game.py`) and the adversarial
search module (`mancala_ai/ai.py`) against their natural-language specification.

The board is a list of stone counts of length `2*(P+1)`:
indices `0..P-1` are player 1's pits, `P` player 1's store,
`P+1..2P` player 2's pits, `2P+1` player 2's store.
-/

set_option maxHeartbeats 1000000

/-- Embedding of the `MancalaGame` dataclass: the fields that the rules
read and write (`board`, `current_player`, `moves_history`) together with
the configuration (`pits_per_player`, `stones_per_pit`). -/
structure MancalaGame where
  pits_per_player : Nat
  stones_per_pit : Nat
  board : List Nat
  current_player : Nat
  moves_history : List (Nat × Nat)
deriving DecidableEq

/-- `MancalaGame.__post_init__`: a board of `(P+1)*2` cells, every cell at
`stones_per_pit`, then both mancalas (indices `P` and `2P+1`) zeroed. -/
def mkGame (P S : Nat) : MancalaGame :=
  { pits_per_player := P
    stones_per_pit := S
    board := ((List.replicate ((P + 1) * 2) S).set P 0).set (2 * P + 1) 0
    current_player := 1
    moves_history := [] }

/-- Sum of the Python slice `b[s : e+1]`. -/
def sliceSum (b : List Nat) (s e : Nat) : Nat :=
  ((b.drop s).take (e + 1 - s)).sum

/-- `MancalaGame.is_terminal`: either player's pit range sums to zero.
Stated at board level since `play` re-checks it on intermediate boards. -/
def isTerminalBoard (P : Nat) (b : List Nat) : Prop :=
  sliceSum b 0 (P - 1) = 0 ∨ sliceSum b (P + 1) (2 * P) = 0

instance (P : Nat) (b : List Nat) : Decidable (isTerminalBoard P b) := by
  unfold isTerminalBoard; infer_instance

def MancalaGame.is_terminal (g : MancalaGame) : Prop :=
  isTerminalBoard g.pits_per_player g.board

instance (g : MancalaGame) : Decidable g.is_terminal := by
  unfold MancalaGame.is_terminal; infer_instance

/-- Board index of the 1-indexed pit `pit` for the current player. -/
def pit_index_of (g : MancalaGame) (pit : Nat) : Nat :=
  (if g.current_player = 1 then 0 else g.pits_per_player + 1) + (pit - 1)

/-- `MancalaGame.is_valid_move`: `1 <= pit <= P` and the chosen cell holds
at least one stone. -/
def MancalaGame.is_valid_move (g : MancalaGame) (pit : Nat) : Prop :=
  1 ≤ pit ∧ pit ≤ g.pits_per_player ∧ 0 < g.board.getD (pit_index_of g pit) 0

instance (g : MancalaGame) (pit : Nat) : Decidable (g.is_valid_move pit) := by
  unfold MancalaGame.is_valid_move; infer_instance

/-- `MancalaGame.get_valid_moves`: pits `1..P` that pass `is_valid_move`,
in ascending order. -/
def MancalaGame.get_valid_moves (g : MancalaGame) : List Nat :=
  (List.range' 1 g.pits_per_player).filter (fun pit => decide (g.is_valid_move pit))

def player_mancala (g : MancalaGame) : Nat :=
  if g.current_player = 1 then g.pits_per_player else 2 * g.pits_per_player + 1

def opponent_mancala (g : MancalaGame) : Nat :=
  if g.current_player = 1 then 2 * g.pits_per_player + 1 else g.pits_per_player

def player_pits_start (g : MancalaGame) : Nat :=
  if g.current_player = 1 then 0 else g.pits_per_player + 1

def player_pits_end (g : MancalaGame) : Nat :=
  if g.current_player = 1 then g.pits_per_player - 1 else 2 * g.pits_per_player

/-- One step of the sowing walk: advance circularly by one cell, skipping the
opponent's mancala (which never receives a stone). -/
def next_index (size oppM idx : Nat) : Nat :=
  let j := (idx + 1) % size
  if j = oppM then (j + 1) % size else j

/-- The `while stones > 0` loop of `_distribute_stones`: drop one stone per
step into the next non-skipped cell; return the board and the landing index. -/
def sow (size oppM : Nat) : Nat → Nat → List Nat → List Nat × Nat
  | 0, idx, b => (b, idx)
  | stones + 1, idx, b =>
    let j := next_index size oppM idx
    sow size oppM stones j (b.set j (b.getD j 0 + 1))

/-- `MancalaGame._distribute_stones`: empty the source pit and sow its stones. -/
def distribute_stones (b : List Nat) (pit_index oppM : Nat) : List Nat × Nat :=
  let size := b.length
  let stones := b.getD pit_index 0
  sow size oppM stones pit_index (b.set pit_index 0)

/-- The sowing stage of `play` applied to a game: source pit and skipped
mancala are those of the current player. -/
def move_sow (g : MancalaGame) (pit : Nat) : List Nat × Nat :=
  distribute_stones g.board (pit_index_of g pit) (opponent_mancala g)

/-- `MancalaGame._is_on_player_side`, with the comparisons carried out over
`Int` exactly as Python does (`0 <= i <= P - 1` can be vacuous when `P = 0`). -/
def on_player_side (P player i : Nat) : Prop :=
  if player = 1 then (0 : Int) ≤ (i : Int) ∧ (i : Int) ≤ (P : Int) - 1
  else P + 1 ≤ i ∧ i ≤ 2 * P

instance (P player i : Nat) : Decidable (on_player_side P player i) := by
  unfold on_player_side; infer_instance

/-- The capture block of `play` (lines 268-278): if the last stone landed in
an own-side cell that now holds exactly one stone and the opposite cell
`2P - fin` is in bounds and nonempty, move the opposite cell's stones plus
the landing stone into the mover's store. -/
def capture_step (P pMan player : Nat) (b1 : List Nat) (fin : Nat) : List Nat :=
  if on_player_side P player fin ∧ b1.getD fin 0 = 1 then
    let opp := 2 * P - fin
    if opp < b1.length ∧ 0 < b1.getD opp 0 then
      let captured := b1.getD opp 0 + 1
      let b := (b1.set opp 0).set fin 0
      b.set pMan (b.getD pMan 0 + captured)
    else b1
  else b1

/-- A sweep loop over the pit indices `idxs`: each iteration performs
`board[man] += board[i]; board[i] = 0`. -/
def sweep_cells (man : Nat) : List Nat → List Nat → List Nat
  | [], b => b
  | i :: idxs, b => sweep_cells man idxs ((b.set man (b.getD man 0 + b.getD i 0)).set i 0)

/-- `MancalaGame._sweep_remaining_stones`: player 1's pits into store `P`,
then player 2's pits into store `2P+1`. -/
def sweep_remaining_stones (P : Nat) (b : List Nat) : List Nat :=
  sweep_cells (2 * P + 1) (List.range' (P + 1) (2 * P + 1 - (P + 1)))
    (sweep_cells P (List.range' 0 (P - 1 + 1)) b)

/-- `2 if current_player == 1 else 1`. -/
def other_player (p : Nat) : Nat := if p = 1 then 2 else 1

/-- The board after the sowing and capture stages of `play`. -/
def post_capture_board (g : MancalaGame) (pit : Nat) : List Nat :=
  capture_step g.pits_per_player (player_mancala g) g.current_player
    (move_sow g pit).1 (move_sow g pit).2

/-- The sweep trigger of `play` (line 281): the mover's own pit range is
empty, or the generic terminal test holds. -/
def sweep_condition (g : MancalaGame) (pit : Nat) : Prop :=
  sliceSum (post_capture_board g pit) (player_pits_start g) (player_pits_end g) = 0
  ∨ isTerminalBoard g.pits_per_player (post_capture_board g pit)

instance (g : MancalaGame) (pit : Nat) : Decidable (sweep_condition g pit) := by
  unfold sweep_condition; infer_instance

/-- The board at the end of a successful `play` call. -/
def final_board (g : MancalaGame) (pit : Nat) : List Nat :=
  if sweep_condition g pit then
    sweep_remaining_stones g.pits_per_player (post_capture_board g pit)
  else post_capture_board g pit

/-- The mutation performed by a successful `play` call: sow, capture check,
terminal sweep, extra-turn check, and the history record. -/
def playBody (g : MancalaGame) (pit : Nat) : MancalaGame :=
  { pits_per_player := g.pits_per_player
    stones_per_pit := g.stones_per_pit
    board := final_board g pit
    current_player :=
      if (move_sow g pit).2 ≠ player_mancala g ∧
          ¬ isTerminalBoard g.pits_per_player (final_board g pit) then
        other_player g.current_player
      else g.current_player
    moves_history := g.moves_history ++ [(g.current_player, pit)] }

/-- `MancalaGame.play`: raises (`none`) when the game is over or the move is
invalid — both checks precede any mutation — and otherwise applies the move. -/
def MancalaGame.play (g : MancalaGame) (pit : Nat) : Option MancalaGame :=
  if g.is_terminal then none
  else if ¬ g.is_valid_move pit then none
  else some (playBody g pit)

/-- A sequence of `play` calls, failing as soon as one call fails. -/
def playSeq (g : MancalaGame) : List Nat → Option MancalaGame
  | [] => some g
  | m :: ms =>
    match g.play m with
    | none => none
    | some g1 => playSeq g1 ms

/-! ### List index/sum lemmas -/

theorem getD_set (b : List Nat) (i j x : Nat) :
    (b.set i x).getD j 0 = if i = j ∧ j < b.length then x else b.getD j 0 := by
  induction b generalizing i j with
  | nil => simp
  | cons a l ih =>
    cases i with
    | zero =>
      cases j with
      | zero => simp
      | succ j => simp
    | succ i =>
      cases j with
      | zero => simp
      | succ j =>
        simp only [List.set_cons_succ, List.getD_cons_succ, ih, List.length_cons]
        exact if_congr (by omega) rfl rfl

theorem sum_set_add (b : List Nat) (i x : Nat) (h : i < b.length) :
    (b.set i x).sum + b.getD i 0 = b.sum + x := by
  induction b generalizing i with
  | nil => simp at h
  | cons a l ih =>
    cases i with
    | zero => simp [List.sum_cons]; omega
    | succ i =>
      have h' : i < l.length := by simpa using h
      have := ih i h'
      simp only [List.set_cons_succ, List.sum_cons, List.getD_cons_succ]
      omega

theorem getD_pos_lt_length {b : List Nat} {j : Nat} (h : 0 < b.getD j 0) : j < b.length := by
  by_contra hc
  rw [List.getD_eq_default _ _ (by omega)] at h
  exact absurd h (by omega)

/-! ### Sowing lemmas -/

theorem next_index_lt (size oppM idx : Nat) (h : 0 < size) : next_index size oppM idx < size := by
  unfold next_index
  dsimp only
  split <;> exact Nat.mod_lt _ h

theorem sow_length (size oppM : Nat) :
    ∀ s idx b, ((sow size oppM s idx b).1).length = b.length := by
  intro s
  induction s with
  | zero => intro idx b; rfl
  | succ s ih =>
    intro idx b
    rw [sow, ih]
    exact List.length_set ..

theorem sow_sum (size oppM : Nat) (hsz : 0 < size) :
    ∀ s idx b, b.length = size → ((sow size oppM s idx b).1).sum = b.sum + s := by
  intro s
  induction s with
  | zero => intro idx b _; rfl
  | succ s ih =>
    intro idx b hb
    rw [sow]
    have hj : next_index size oppM idx < b.length := hb ▸ next_index_lt size oppM idx hsz
    have hset := sum_set_add b (next_index size oppM idx)
      (b.getD (next_index size oppM idx) 0 + 1) hj
    rw [ih _ _ (by rw [List.length_set]; exact hb)]
    omega

theorem sow_getD_le (size oppM : Nat) :
    ∀ s idx b j, b.getD j 0 ≤ ((sow size oppM s idx b).1).getD j 0 := by
  intro s
  induction s with
  | zero => intro idx b j; exact Nat.le_refl _
  | succ s ih =>
    intro idx b j
    rw [sow]
    refine Nat.le_trans ?_ (ih _ _ j)
    rw [getD_set]
    split
    case isTrue h => rw [h.1]; omega
    case isFalse h => exact Nat.le_refl _

theorem sow_final_lt (size oppM : Nat) (hsz : 0 < size) :
    ∀ s idx b, 0 < s → ((sow size oppM s idx b).2) < size := by
  intro s
  induction s with
  | zero => intro idx b h; exact absurd h (by omega)
  | succ s ih =>
    intro idx b _
    rw [sow]
    cases s with
    | zero => exact next_index_lt size oppM idx hsz
    | succ s => exact ih _ _ (by omega)

/-! ### Capture lemmas -/

theorem on_side_facts {P player fin : Nat} (h : on_player_side P player fin) :
    (player = 1 ∧ 1 ≤ P ∧ fin + 1 ≤ P ∧ P + 1 ≤ 2 * P - fin ∧ 2 * P - fin ≤ 2 * P)
    ∨ (player ≠ 1 ∧ 1 ≤ P ∧ P + 1 ≤ fin ∧ fin ≤ 2 * P ∧ 2 * P - fin ≤ P - 1) := by
  unfold on_player_side at h
  by_cases hp : player = 1
  · left
    simp only [hp, if_true] at h
    refine ⟨hp, ?_⟩
    omega
  · right
    simp only [hp, if_false] at h
    refine ⟨hp, ?_⟩
    omega

theorem capture_length (P pMan player : Nat) (b1 : List Nat) (fin : Nat) :
    (capture_step P pMan player b1 fin).length = b1.length := by
  unfold capture_step
  dsimp only
  split
  · split
    · simp
    · rfl
  · rfl

theorem capture_sum (P pMan player : Nat) (b1 : List Nat) (fin : Nat)
    (hman : pMan = if player = 1 then P else 2 * P + 1)
    (hlen : b1.length = (P + 1) * 2) :
    (capture_step P pMan player b1 fin).sum = b1.sum := by
  unfold capture_step
  dsimp only
  split
  case isFalse => rfl
  case isTrue hguard =>
    split
    case isFalse => rfl
    case isTrue hopp =>
      obtain ⟨hside, hfin1⟩ := hguard
      obtain ⟨hoppl, hoppos⟩ := hopp
      have hfinlt : fin < b1.length := getD_pos_lt_length (by omega)
      have hfacts := on_side_facts hside
      have hne1 : (2 * P - fin) ≠ fin := by
        rcases hfacts with ⟨_, h2⟩ | ⟨_, h2⟩ <;> omega
      have hpman : pMan < b1.length ∧ pMan ≠ fin ∧ pMan ≠ 2 * P - fin := by
        rcases hfacts with ⟨h1, h2⟩ | ⟨h1, h2⟩ <;> simp only [h1, if_true, if_false] at hman <;>
          omega
      have h1 := sum_set_add b1 (2 * P - fin) 0 hoppl
      have h2 := sum_set_add (b1.set (2 * P - fin) 0) fin 0 (by simpa using hfinlt)
      have h2g : (b1.set (2 * P - fin) 0).getD fin 0 = b1.getD fin 0 := by
        rw [getD_set]
        split
        case isTrue hh => exact absurd hh.1 hne1
        case isFalse => rfl
      have h3 := sum_set_add ((b1.set (2 * P - fin) 0).set fin 0) pMan
        (((b1.set (2 * P - fin) 0).set fin 0).getD pMan 0 + (b1.getD (2 * P - fin) 0 + 1))
        (by simpa using hpman.1)
      omega

/-- Effect of the capturing branch on the three cells it touches: the landing
cell and the opposite cell are zeroed, and the mover's store gains the
opposite cell's stones plus one. -/
theorem capture_cells (P pMan player : Nat) (b1 : List Nat) (fin : Nat)
    (hside : on_player_side P player fin) (hfin1 : b1.getD fin 0 = 1)
    (hoppl : 2 * P - fin < b1.length) (hoppos : 0 < b1.getD (2 * P - fin) 0)
    (hman : pMan = if player = 1 then P else 2 * P + 1)
    (hlen : b1.length = (P + 1) * 2) :
    (capture_step P pMan player b1 fin).getD fin 0 = 0 ∧
    (capture_step P pMan player b1 fin).getD (2 * P - fin) 0 = 0 ∧
    (capture_step P pMan player b1 fin).getD pMan 0 =
      b1.getD pMan 0 + b1.getD (2 * P - fin) 0 + 1 := by
  have hfinlt : fin < b1.length := getD_pos_lt_length (by omega)
  have hfacts := on_side_facts hside
  have hne1 : (2 * P - fin) ≠ fin := by
    rcases hfacts with ⟨_, h2⟩ | ⟨_, h2⟩ <;> omega
  have hpman : pMan < b1.length ∧ pMan ≠ fin ∧ pMan ≠ 2 * P - fin := by
    rcases hfacts with ⟨h1, h2⟩ | ⟨h1, h2⟩ <;> simp only [h1, if_true, if_false] at hman <;>
      omega
  unfold capture_step
  rw [if_pos ⟨hside, hfin1⟩, if_pos ⟨hoppl, hoppos⟩]
  refine ⟨?_, ?_, ?_⟩
  · rw [getD_set]
    split
    case isTrue hh => exact absurd hh.1 hpman.2.1
    case isFalse =>
      rw [getD_set]
      split
      case isTrue => rfl
      case isFalse hh => exact absurd ⟨rfl, by simpa using hfinlt⟩ hh
  · rw [getD_set]
    split
    case isTrue hh => exact absurd hh.1 hpman.2.2
    case isFalse =>
      rw [getD_set]
      split
      case isTrue hh => exact absurd hh.1 hne1.symm
      case isFalse =>
        rw [getD_set]
        split
        case isTrue => rfl
        case isFalse hh => exact absurd ⟨rfl, by simpa using hoppl⟩ hh
  · rw [getD_set]
    split
    case isFalse hh =>
      exact absurd ⟨rfl, by simpa using hpman.1⟩ hh
    case isTrue =>
      have e1 : ((b1.set (2 * P - fin) 0).set fin 0).getD pMan 0 = b1.getD pMan 0 := by
        rw [getD_set]
        split
        case isTrue hh => exact absurd hh.1 hpman.2.1.symm
        case isFalse =>
          rw [getD_set]
          split
          case isTrue hh => exact absurd hh.1 hpman.2.2.symm
          case isFalse => rfl
      omega

/-- When the capture condition fails, the capture block leaves the board as is. -/
theorem capture_noop (P pMan player : Nat) (b1 : List Nat) (fin : Nat)
    (h : ¬ (on_player_side P player fin ∧ b1.getD fin 0 = 1 ∧
            0 < b1.getD (2 * P - fin) 0)) :
    capture_step P pMan player b1 fin = b1 := by
  unfold capture_step
  dsimp only
  split
  case isFalse => rfl
  case isTrue hguard =>
    split
    case isFalse => rfl
    case isTrue hopp => exact absurd ⟨hguard.1, hguard.2, hopp.2⟩ h

/-! ### Sweep lemmas -/

theorem sweep_cells_length (man : Nat) (idxs : List Nat) (b : List Nat) :
    (sweep_cells man idxs b).length = b.length := by
  induction idxs generalizing b with
  | nil => rfl
  | cons i l ih =>
    rw [sweep_cells, ih]
    simp

theorem sweep_cells_sum (man : Nat) (idxs : List Nat) (b : List Nat)
    (hman : man < b.length) (h : ∀ i ∈ idxs, i < b.length ∧ i ≠ man) :
    (sweep_cells man idxs b).sum = b.sum := by
  induction idxs generalizing b with
  | nil => rfl
  | cons i l ih =>
    rw [sweep_cells]
    have hi := h i (List.mem_cons_self ..)
    have h1 := sum_set_add b man (b.getD man 0 + b.getD i 0) hman
    have h2 := sum_set_add (b.set man (b.getD man 0 + b.getD i 0)) i 0
      (by simpa using hi.1)
    have h3 : (b.set man (b.getD man 0 + b.getD i 0)).getD i 0 = b.getD i 0 := by
      rw [getD_set]
      split
      case isTrue hh => exact absurd hh.1.symm hi.2
      case isFalse => rfl
    rw [ih _ (by simpa using hman)
      (fun j hj => by
        have := h j (List.mem_cons_of_mem _ hj)
        simpa using this)]
    omega

/-- Any cell other than the store that is zero stays zero across a sweep. -/
theorem sweep_cells_zero_preserved (man : Nat) (idxs : List Nat) (b : List Nat) (j : Nat)
    (hjman : j ≠ man) (hj : b.getD j 0 = 0) :
    (sweep_cells man idxs b).getD j 0 = 0 := by
  induction idxs generalizing b with
  | nil => exact hj
  | cons i l ih =>
    rw [sweep_cells]
    apply ih
    rw [getD_set]
    split
    case isTrue => rfl
    case isFalse =>
      rw [getD_set]
      split
      case isTrue hh => exact absurd hh.1.symm hjman
      case isFalse => exact hj

/-- Every swept index ends the sweep holding zero stones. -/
theorem sweep_cells_mem_zero (man : Nat) (idxs : List Nat) (b : List Nat) (j : Nat)
    (hjman : j ≠ man) (hmem : j ∈ idxs) :
    (sweep_cells man idxs b).getD j 0 = 0 := by
  induction idxs generalizing b with
  | nil => cases hmem
  | cons i l ih =>
    rw [sweep_cells]
    rcases List.mem_cons.mp hmem with rfl | hmem'
    · apply sweep_cells_zero_preserved _ _ _ _ hjman
      rw [getD_set]
      split
      case isTrue => rfl
      case isFalse hh =>
        have hnl : ¬ j < b.length := fun hlt => hh ⟨rfl, by simpa using hlt⟩
        exact List.getD_eq_default _ _ (by simp only [List.length_set]; omega)
    · exact ih _ hmem'

/-- The store index only ever gains stones during a sweep. -/
theorem sweep_cells_man_le (man : Nat) (idxs : List Nat) (b : List Nat)
    (h : ∀ i ∈ idxs, i ≠ man) :
    b.getD man 0 ≤ (sweep_cells man idxs b).getD man 0 := by
  induction idxs generalizing b with
  | nil => exact Nat.le_refl _
  | cons i l ih =>
    rw [sweep_cells]
    refine Nat.le_trans ?_ (ih _ (fun j hj => h j (List.mem_cons_of_mem _ hj)))
    rw [getD_set]
    split
    case isTrue hh => exact absurd hh.1 (h i (List.mem_cons_self ..))
    case isFalse =>
      rw [getD_set]
      split
      case isTrue => omega
      case isFalse => exact Nat.le_refl _

/-- Cells that are neither swept nor the store are untouched by a sweep. -/
theorem sweep_cells_notmem (man : Nat) (idxs : List Nat) (b : List Nat) (j : Nat)
    (hjman : j ≠ man) (hj : j ∉ idxs) :
    (sweep_cells man idxs b).getD j 0 = b.getD j 0 := by
  induction idxs generalizing b with
  | nil => rfl
  | cons i l ih =>
    rw [sweep_cells]
    rw [ih _ (fun hmem => hj (List.mem_cons_of_mem _ hmem))]
    rw [getD_set]
    split
    case isTrue hh => exact absurd hh.1 (fun hij => hj (hij ▸ List.mem_cons_self ..))
    case isFalse =>
      rw [getD_set]
      split
      case isTrue hh => exact absurd hh.1.symm hjman
      case isFalse => rfl

/-! ### `play` destructor -/

theorem play_spec {g g' : MancalaGame} {pit : Nat} (h : g.play pit = some g') :
    ¬ g.is_terminal ∧ g.is_valid_move pit ∧ g' = playBody g pit := by
  unfold MancalaGame.play at h
  split at h
  case isTrue => exact Option.noConfusion h
  case isFalse h1 =>
    split at h
    case isTrue => exact Option.noConfusion h
    case isFalse h2 => exact ⟨h1, not_not.mp h2, (Option.some_inj.mp h).symm⟩

theorem play_fails_iff (g : MancalaGame) (pit : Nat) :
    g.play pit = none ↔ (g.is_terminal ∨ ¬ g.is_valid_move pit) := by
  unfold MancalaGame.play
  split
  case isTrue h => simp [h]
  case isFalse h1 =>
    split
    case isTrue h2 => simp [h1, h2]
    case isFalse h2 => simp [h1, not_not.mp h2]

/-! ### `play` preserves the total stone count, the board length
and the configuration -/

theorem sweep_sum_length (P : Nat) (b : List Nat) (hP : 1 ≤ P)
    (hlen : b.length = (P + 1) * 2) :
    (sweep_remaining_stones P b).sum = b.sum ∧
    (sweep_remaining_stones P b).length = b.length := by
  have hA : ∀ i ∈ List.range' 0 (P - 1 + 1), i < b.length ∧ i ≠ P := by
    intro i hi
    rw [List.mem_range'_1] at hi
    omega
  have h1sum := sweep_cells_sum P (List.range' 0 (P - 1 + 1)) b (by omega) hA
  have h1len := sweep_cells_length P (List.range' 0 (P - 1 + 1)) b
  have hB : ∀ i ∈ List.range' (P + 1) (2 * P + 1 - (P + 1)),
      i < (sweep_cells P (List.range' 0 (P - 1 + 1)) b).length ∧ i ≠ 2 * P + 1 := by
    intro i hi
    rw [List.mem_range'_1] at hi
    omega
  have h2sum := sweep_cells_sum (2 * P + 1) (List.range' (P + 1) (2 * P + 1 - (P + 1)))
    (sweep_cells P (List.range' 0 (P - 1 + 1)) b) (by omega) hB
  have h2len := sweep_cells_length (2 * P + 1) (List.range' (P + 1) (2 * P + 1 - (P + 1)))
    (sweep_cells P (List.range' 0 (P - 1 + 1)) b)
  unfold sweep_remaining_stones
  exact ⟨by rw [h2sum, h1sum], by rw [h2len, h1len]⟩

theorem valid_move_facts {g : MancalaGame} {pit : Nat} (hv : g.is_valid_move pit) :
    1 ≤ g.pits_per_player ∧ pit_index_of g pit < g.board.length := by
  obtain ⟨hv1, hv2, hv3⟩ := hv
  exact ⟨Nat.le_trans hv1 hv2, getD_pos_lt_length hv3⟩

theorem move_sow_length (g : MancalaGame) (pit : Nat) :
    (move_sow g pit).1.length = g.board.length := by
  unfold move_sow distribute_stones
  rw [sow_length]
  exact List.length_set ..

theorem move_sow_sum {g : MancalaGame} (pit : Nat)
    (hpix : pit_index_of g pit < g.board.length) :
    (move_sow g pit).1.sum = g.board.sum := by
  unfold move_sow distribute_stones
  dsimp only
  rw [sow_sum _ _ (by omega) _ _ _ (List.length_set ..)]
  have hs := sum_set_add g.board (pit_index_of g pit) 0 hpix
  omega

theorem post_capture_length (g : MancalaGame) (pit : Nat) :
    (post_capture_board g pit).length = g.board.length := by
  unfold post_capture_board
  rw [capture_length]
  exact move_sow_length g pit

theorem post_capture_sum {g : MancalaGame} {pit : Nat}
    (hlen : g.board.length = (g.pits_per_player + 1) * 2)
    (hpix : pit_index_of g pit < g.board.length) :
    (post_capture_board g pit).sum = g.board.sum := by
  unfold post_capture_board
  have hman : player_mancala g =
      if g.current_player = 1 then g.pits_per_player else 2 * g.pits_per_player + 1 := rfl
  rw [capture_sum _ _ _ _ _ hman (by rw [move_sow_length]; exact hlen)]
  exact move_sow_sum pit hpix

theorem play_preserves {g g' : MancalaGame} {pit : Nat}
    (hlen : g.board.length = (g.pits_per_player + 1) * 2)
    (h : g.play pit = some g') :
    g'.board.sum = g.board.sum ∧ g'.board.length = g.board.length ∧
    g'.pits_per_player = g.pits_per_player ∧ g'.stones_per_pit = g.stones_per_pit := by
  obtain ⟨hnt, hv, rfl⟩ := play_spec h
  obtain ⟨hP, hpix⟩ := valid_move_facts hv
  have hb2len : (post_capture_board g pit).length = g.board.length :=
    post_capture_length g pit
  have hb2sum : (post_capture_board g pit).sum = g.board.sum := post_capture_sum hlen hpix
  have hboard : (playBody g pit).board = final_board g pit := rfl
  refine ⟨?_, ?_, rfl, rfl⟩ <;> rw [hboard] <;> unfold final_board <;> split
  · rw [(sweep_sum_length _ _ hP (by rw [hb2len]; exact hlen)).1, hb2sum]
  · exact hb2sum
  · rw [(sweep_sum_length _ _ hP (by rw [hb2len]; exact hlen)).2, hb2len]
  · exact hb2len

/-! ### Initial board facts -/

theorem getD_replicate (n j a : Nat) :
    (List.replicate n a).getD j 0 = if j < n then a else 0 := by
  induction n generalizing j with
  | zero => simp
  | succ n ih =>
    cases j with
    | zero => simp [List.replicate_succ]
    | succ j =>
      rw [List.replicate_succ, List.getD_cons_succ, ih]
      exact if_congr (by omega) rfl rfl

theorem mkGame_board_length (P S : Nat) : (mkGame P S).board.length = (P + 1) * 2 := by
  unfold mkGame
  simp

theorem mkGame_board_sum (P S : Nat) : (mkGame P S).board.sum = 2 * P * S := by
  unfold mkGame
  dsimp only
  have h0 : (List.replicate ((P + 1) * 2) S).sum = ((P + 1) * 2) * S := by
    rw [List.sum_replicate, smul_eq_mul]
  have hP1 : P < (List.replicate ((P + 1) * 2) S).length := by
    simp
    omega
  have h1 := sum_set_add (List.replicate ((P + 1) * 2) S) P 0 hP1
  have h1g : (List.replicate ((P + 1) * 2) S).getD P 0 = S := by
    rw [getD_replicate, if_pos (by omega)]
  have hP2 : 2 * P + 1 < ((List.replicate ((P + 1) * 2) S).set P 0).length := by
    simp
    omega
  have h2 := sum_set_add ((List.replicate ((P + 1) * 2) S).set P 0) (2 * P + 1) 0 hP2
  have h2g : ((List.replicate ((P + 1) * 2) S).set P 0).getD (2 * P + 1) 0 = S := by
    rw [getD_set]
    split
    case isTrue hh => omega
    case isFalse => rw [getD_replicate, if_pos (by omega)]
  have e1 : (P + 1) * 2 * S = 2 * (P * S) + 2 * S := by ring
  have e2 : 2 * P * S = 2 * (P * S) := by ring
  omega

theorem playSeq_conservation (P S : Nat) :
    ∀ (ms : List Nat) (g g' : MancalaGame),
      g.pits_per_player = P → g.board.length = (P + 1) * 2 → g.board.sum = 2 * P * S →
      playSeq g ms = some g' → g'.board.sum = 2 * P * S ∧ g'.board.length = (P + 1) * 2 := by
  intro ms
  induction ms with
  | nil =>
    intro g g' _ h2 h3 h4
    simp only [playSeq, Option.some_inj] at h4
    subst h4
    exact ⟨h3, h2⟩
  | cons m ms ih =>
    intro g g' h1 h2 h3 h4
    rw [playSeq] at h4
    cases hp : g.play m with
    | none => rw [hp] at h4; exact Option.noConfusion h4
    | some g1 =>
      rw [hp] at h4
      have hpres := play_preserves (by rw [h1]; exact h2) hp
      exact ih g1 g' (hpres.2.2.1.trans h1) (by rw [hpres.2.1, h2]) (by rw [hpres.1, h3]) h4

/-- C1: for every game built with `pits_per_player = P ≥ 1` and
`stones_per_pit = S`, after every sequence of successful `play` calls
(including any that triggered the terminal sweep) the board still sums to
`2*P*S`: no stones are created or destroyed. -/
theorem C1_stone_conservation (P S : Nat) (ms : List Nat) (g' : MancalaGame)
    (hP : 1 ≤ P) (h : playSeq (mkGame P S) ms = some g') :
    g'.board.sum = 2 * P * S :=
  (playSeq_conservation P S ms (mkGame P S) g' rfl (mkGame_board_length P S)
    (mkGame_board_sum P S) h).1

theorem C1_stone_conservation_witness :
    (⟨1, 1, [0, 1, 0, 1], 1, [(1, 1)]⟩ : MancalaGame).board.sum = 2 * 1 * 1 :=
  C1_stone_conservation 1 1 [1] ⟨1, 1, [0, 1, 0, 1], 1, [(1, 1)]⟩ (by decide) (by decide)

/-- C7: `play` fails (returns the error case) exactly when the game is
already terminal or the requested pit is not a valid move, and otherwise
succeeds; in particular it never succeeds on a pit that `is_valid_move`
rejected immediately prior.  In the Python source the two checks precede the
first mutation, which the embedding mirrors by returning `none` before any
board computation, so a failing call leaves the state untouched. -/
theorem C7_play_error_behavior (g : MancalaGame) (pit : Nat) :
    (g.play pit = none ↔ g.is_terminal ∨ ¬ g.is_valid_move pit) ∧
    (∀ g', g.play pit = some g' → g.is_valid_move pit ∧ ¬ g.is_terminal) := by
  refine ⟨play_fails_iff g pit, ?_⟩
  intro g' h
  obtain ⟨h1, h2, _⟩ := play_spec h
  exact ⟨h2, h1⟩

/-! ### Store monotonicity -/

theorem capture_store_le (P pMan player : Nat) (b1 : List Nat) (fin : Nat)
    (hman : pMan = if player = 1 then P else 2 * P + 1) :
    b1.getD P 0 ≤ (capture_step P pMan player b1 fin).getD P 0 ∧
    b1.getD (2 * P + 1) 0 ≤ (capture_step P pMan player b1 fin).getD (2 * P + 1) 0 := by
  unfold capture_step
  dsimp only
  split
  case isFalse => exact ⟨Nat.le_refl _, Nat.le_refl _⟩
  case isTrue hguard =>
    split
    case isFalse => exact ⟨Nat.le_refl _, Nat.le_refl _⟩
    case isTrue hopp =>
      have hfacts := on_side_facts hguard.1
      have hfin_ne : fin ≠ P ∧ fin ≠ 2 * P + 1 := by
        rcases hfacts with ⟨_, hf⟩ | ⟨_, hf⟩ <;> omega
      have hopp_ne : 2 * P - fin ≠ P ∧ 2 * P - fin ≠ 2 * P + 1 := by
        rcases hfacts with ⟨_, hf⟩ | ⟨_, hf⟩ <;> omega
      have e : ∀ j, j ≠ fin → j ≠ 2 * P - fin →
          ((b1.set (2 * P - fin) 0).set fin 0).getD j 0 = b1.getD j 0 := by
        intro j h1 h2
        rw [getD_set]
        split
        case isTrue hh => exact absurd hh.1.symm h1
        case isFalse =>
          rw [getD_set]
          split
          case isTrue hh => exact absurd hh.1.symm h2
          case isFalse => rfl
      constructor
      · rw [getD_set]
        split
        case isTrue hh =>
          obtain ⟨hq, _⟩ := hh
          rw [hq, e P (by omega) (by omega)]
          omega
        case isFalse => rw [e P (by omega) (by omega)]
      · rw [getD_set]
        split
        case isTrue hh =>
          obtain ⟨hq, _⟩ := hh
          rw [hq, e (2 * P + 1) (by omega) (by omega)]
          omega
        case isFalse => rw [e (2 * P + 1) (by omega) (by omega)]

theorem sweep_store_le (P : Nat) (b : List Nat) (hP : 1 ≤ P) :
    b.getD P 0 ≤ (sweep_remaining_stones P b).getD P 0 ∧
    b.getD (2 * P + 1) 0 ≤ (sweep_remaining_stones P b).getD (2 * P + 1) 0 := by
  unfold sweep_remaining_stones
  constructor
  · rw [sweep_cells_notmem _ _ _ _ (by omega)
      (fun hmem => by rw [List.mem_range'_1] at hmem; omega)]
    exact sweep_cells_man_le _ _ _ (fun i hi => by rw [List.mem_range'_1] at hi; omega)
  · refine Nat.le_trans ?_ (sweep_cells_man_le _ _ _
      (fun i hi => by rw [List.mem_range'_1] at hi; omega))
    rw [sweep_cells_notmem _ _ _ _ (by omega)
      (fun hmem => by rw [List.mem_range'_1] at hmem; omega)]

theorem pit_index_not_store {g : MancalaGame} {pit : Nat} (hv : g.is_valid_move pit) :
    pit_index_of g pit ≠ g.pits_per_player ∧
    pit_index_of g pit ≠ 2 * g.pits_per_player + 1 := by
  obtain ⟨hv1, hv2, _⟩ := hv
  unfold pit_index_of
  split <;> omega

/-- C10: a successful `play` never decreases either player's store count:
sowing only adds stones to cells, the capture transfer only adds to the
mover's store, and the terminal sweep only adds to both stores. -/
theorem C10_stores_monotone (g g' : MancalaGame) (pit : Nat) (h : g.play pit = some g') :
    g.board.getD g.pits_per_player 0 ≤ g'.board.getD g.pits_per_player 0 ∧
    g.board.getD (2 * g.pits_per_player + 1) 0 ≤
      g'.board.getD (2 * g.pits_per_player + 1) 0 := by
  obtain ⟨hnt, hv, rfl⟩ := play_spec h
  obtain ⟨hP, hpix⟩ := valid_move_facts hv
  have hpne := pit_index_not_store hv
  have hstep0 : ∀ j, j ≠ pit_index_of g pit →
      g.board.getD j 0 = (g.board.set (pit_index_of g pit) 0).getD j 0 := by
    intro j hj
    rw [getD_set]
    split
    case isTrue hh => exact absurd hh.1.symm hj
    case isFalse => rfl
  have hsow : ∀ j, (g.board.set (pit_index_of g pit) 0).getD j 0 ≤
      (move_sow g pit).1.getD j 0 := by
    intro j
    unfold move_sow distribute_stones
    exact sow_getD_le _ _ _ _ _ j
  have hman : player_mancala g =
      if g.current_player = 1 then g.pits_per_player else 2 * g.pits_per_player + 1 := rfl
  have hcap := capture_store_le g.pits_per_player (player_mancala g) g.current_player
    (move_sow g pit).1 (move_sow g pit).2 hman
  have hboard : (playBody g pit).board = final_board g pit := rfl
  rw [hboard]
  unfold final_board
  split
  · have hsw := sweep_store_le g.pits_per_player (post_capture_board g pit) hP
    constructor
    · calc g.board.getD g.pits_per_player 0
          = _ := hstep0 _ (Ne.symm hpne.1)
        _ ≤ _ := hsow g.pits_per_player
        _ ≤ _ := hcap.1
        _ ≤ _ := hsw.1
    · calc g.board.getD (2 * g.pits_per_player + 1) 0
          = _ := hstep0 _ (Ne.symm hpne.2)
        _ ≤ _ := hsow (2 * g.pits_per_player + 1)
        _ ≤ _ := hcap.2
        _ ≤ _ := hsw.2
  · constructor
    · calc g.board.getD g.pits_per_player 0
          = _ := hstep0 _ (Ne.symm hpne.1)
        _ ≤ _ := hsow g.pits_per_player
        _ ≤ _ := hcap.1
    · calc g.board.getD (2 * g.pits_per_player + 1) 0
          = _ := hstep0 _ (Ne.symm hpne.2)
        _ ≤ _ := hsow (2 * g.pits_per_player + 1)
        _ ≤ _ := hcap.2

theorem C10_stores_monotone_witness :
    (mkGame 6 4).board.getD 6 0 ≤
      (⟨6, 4, [0, 5, 5, 5, 5, 4, 0, 4, 4, 4, 4, 4, 4, 0] , 2, [(1, 1)]⟩ :
        MancalaGame).board.getD 6 0 ∧
    (mkGame 6 4).board.getD 13 0 ≤
      (⟨6, 4, [0, 5, 5, 5, 5, 4, 0, 4, 4, 4, 4, 4, 4, 0] , 2, [(1, 1)]⟩ :
        MancalaGame).board.getD 13 0 :=
  C10_stores_monotone (mkGame 6 4)
    ⟨6, 4, [0, 5, 5, 5, 5, 4, 0, 4, 4, 4, 4, 4, 4, 0] , 2, [(1, 1)]⟩ 1 (by decide)

/-! ### Terminal sweep -/

theorem sweep_zeroes (P : Nat) (b : List Nat) (hP : 1 ≤ P) :
    ∀ i, (i < P ∨ (P + 1 ≤ i ∧ i ≤ 2 * P)) →
      (sweep_remaining_stones P b).getD i 0 = 0 := by
  intro i hi
  unfold sweep_remaining_stones
  rcases hi with hi | hi
  · apply sweep_cells_zero_preserved _ _ _ _ (by omega)
    exact sweep_cells_mem_zero _ _ _ _ (by omega) (by rw [List.mem_range'_1]; omega)
  · exact sweep_cells_mem_zero _ _ _ _ (by omega) (by rw [List.mem_range'_1]; omega)

/-- C6: if a successful `play` leaves either player's pit range summing to
zero, the resulting state is terminal and every non-store cell is zero — all
remaining stones were swept into the two stores. -/
theorem C6_terminal_sweep (g g' : MancalaGame) (pit : Nat) (h : g.play pit = some g')
    (hz : sliceSum g'.board 0 (g'.pits_per_player - 1) = 0 ∨
          sliceSum g'.board (g'.pits_per_player + 1) (2 * g'.pits_per_player) = 0) :
    g'.is_terminal ∧
    ((List.range' 0 g'.pits_per_player).all fun i => g'.board.getD i 0 == 0) = true ∧
    ((List.range' (g'.pits_per_player + 1) g'.pits_per_player).all
      fun i => g'.board.getD i 0 == 0) = true := by
  obtain ⟨hnt, hv, rfl⟩ := play_spec h
  obtain ⟨hP, hpix⟩ := valid_move_facts hv
  have hpp : (playBody g pit).pits_per_player = g.pits_per_player := rfl
  have hboard : (playBody g pit).board = final_board g pit := rfl
  rw [hpp, hboard] at hz
  refine ⟨hz, ?_, ?_⟩
  all_goals rw [List.all_eq_true]
  all_goals intro i hi
  all_goals rw [List.mem_range'_1, hpp] at hi
  all_goals rw [beq_iff_eq, hboard]
  all_goals by_cases hsw : sweep_condition g pit
  case pos =>
    unfold final_board
    rw [if_pos hsw]
    exact sweep_zeroes g.pits_per_player _ hP i (Or.inl (by omega))
  case neg =>
    unfold final_board at hz
    rw [if_neg hsw] at hz
    exact absurd (Or.inr hz) hsw
  case pos =>
    unfold final_board
    rw [if_pos hsw]
    exact sweep_zeroes g.pits_per_player _ hP i (Or.inr (by omega))
  case neg =>
    unfold final_board at hz
    rw [if_neg hsw] at hz
    exact absurd (Or.inr hz) hsw

theorem C6_terminal_sweep_witness :
    (⟨1, 1, [0, 1, 0, 1], 1, [(1, 1)]⟩ : MancalaGame).is_terminal ∧
    ((List.range' 0 (⟨1, 1, [0, 1, 0, 1], 1, [(1, 1)]⟩ : MancalaGame).pits_per_player).all
      fun i => (⟨1, 1, [0, 1, 0, 1], 1, [(1, 1)]⟩ : MancalaGame).board.getD i 0 == 0) = true ∧
    ((List.range' ((⟨1, 1, [0, 1, 0, 1], 1, [(1, 1)]⟩ : MancalaGame).pits_per_player + 1)
        (⟨1, 1, [0, 1, 0, 1], 1, [(1, 1)]⟩ : MancalaGame).pits_per_player).all
      fun i => (⟨1, 1, [0, 1, 0, 1], 1, [(1, 1)]⟩ : MancalaGame).board.getD i 0 == 0) = true :=
  C6_terminal_sweep (mkGame 1 1) ⟨1, 1, [0, 1, 0, 1], 1, [(1, 1)]⟩ 1 (by decide) (by decide)

/-! ### Extra turn -/

theorem other_player_ne (p : Nat) : other_player p ≠ p := by
  unfold other_player
  split <;> omega

/-- C5: after a successful, non-terminating `play`, the mover keeps the turn
iff the last stone landed exactly in their own store, and otherwise the turn
passes to the other player; in particular, on the initial 6x4 board player 1
playing pit 3 lands in the store (index 6) and stays to move. -/
theorem C5_extra_turn (g g' : MancalaGame) (pit : Nat) (h : g.play pit = some g')
    (hnt : ¬ g'.is_terminal) :
    (g'.current_player = g.current_player ↔ (move_sow g pit).2 = player_mancala g) ∧
    (g'.current_player = other_player g.current_player ↔
      (move_sow g pit).2 ≠ player_mancala g) ∧
    (move_sow (mkGame 6 4) 3).2 = 6 ∧
    Option.map MancalaGame.current_player ((mkGame 6 4).play 3) = some 1 := by
  obtain ⟨hnt0, hv, rfl⟩ := play_spec h
  have hcur : (playBody g pit).current_player =
      if (move_sow g pit).2 ≠ player_mancala g ∧
          ¬ isTerminalBoard g.pits_per_player (final_board g pit) then
        other_player g.current_player
      else g.current_player := rfl
  have hterm : ¬ isTerminalBoard g.pits_per_player (final_board g pit) := hnt
  refine ⟨?_, ?_, by decide, by decide⟩
  · rw [hcur]
    by_cases hfin : (move_sow g pit).2 = player_mancala g
    · rw [if_neg (fun hc => hc.1 hfin)]
      exact ⟨fun _ => hfin, fun _ => rfl⟩
    · rw [if_pos ⟨hfin, hterm⟩]
      exact ⟨fun hc => absurd hc (other_player_ne _), fun hc => absurd hc hfin⟩
  · rw [hcur]
    by_cases hfin : (move_sow g pit).2 = player_mancala g
    · rw [if_neg (fun hc => hc.1 hfin)]
      exact ⟨fun hc => absurd hc.symm (other_player_ne _), fun hc => absurd hfin hc⟩
    · rw [if_pos ⟨hfin, hterm⟩]
      exact ⟨fun _ => hfin, fun _ => rfl⟩

theorem C5_extra_turn_witness :
    ((⟨6, 4, [4, 4, 0, 5, 5, 5, 1, 4, 4, 4, 4, 4, 4, 0], 1, [(1, 3)]⟩ :
        MancalaGame).current_player = (mkGame 6 4).current_player ↔
      (move_sow (mkGame 6 4) 3).2 = player_mancala (mkGame 6 4)) ∧
    ((⟨6, 4, [4, 4, 0, 5, 5, 5, 1, 4, 4, 4, 4, 4, 4, 0], 1, [(1, 3)]⟩ :
        MancalaGame).current_player = other_player (mkGame 6 4).current_player ↔
      (move_sow (mkGame 6 4) 3).2 ≠ player_mancala (mkGame 6 4)) ∧
    (move_sow (mkGame 6 4) 3).2 = 6 ∧
    Option.map MancalaGame.current_player ((mkGame 6 4).play 3) = some 1 :=
  C5_extra_turn (mkGame 6 4)
    ⟨6, 4, [4, 4, 0, 5, 5, 5, 1, 4, 4, 4, 4, 4, 4, 0], 1, [(1, 3)]⟩ 3
    (by decide) (by decide)

/-! ### Capture rule -/

/-- C3 counterexample: on the game constructed with `P = 1, S = 3`, the very
first move sows a full lap and lands back on the source pit (index 0), which
held 3 stones before the move — not empty — yet the capture fires: the board
ends as `[0, 6, 0, 0]` with the opposite pit's 4 stones plus the landing
stone moved into the store.  So "lands with exactly one stone after
placement" is not equivalent to "the cell was empty before this move". -/
theorem C3_capture_counterexample :
    (mkGame 1 3).board.getD 0 0 = 3 ∧
    move_sow (mkGame 1 3) 1 = ([1, 1, 4, 0], 0) ∧
    capture_step 1 1 1 [1, 1, 4, 0] 0 = [0, 6, 0, 0] ∧
    (mkGame 1 3).play 1 = some ⟨1, 3, [0, 6, 0, 0], 1, [(1, 1)]⟩ := by
  decide

/-- C3 (amended): the capture transfer happens exactly when the landing
index lies in the mover's own pit range, the landing cell holds exactly one
stone after placement (which, when the sow made less than a full lap, means
it was empty before the move — but a full lap can land back on the emptied
source pit), and the opposite cell `2P - fin` is nonempty; the bounds check
`opp < len` in the source is redundant for boards of the constructed length.
When the condition fails the board is untouched. -/
theorem C3_capture_condition (P pMan player : Nat) (b1 : List Nat) (fin : Nat)
    (hman : pMan = if player = 1 then P else 2 * P + 1)
    (hlen : b1.length = (P + 1) * 2) :
    (on_player_side P player fin ∧ b1.getD fin 0 = 1 ∧ 0 < b1.getD (2 * P - fin) 0 →
      (capture_step P pMan player b1 fin).getD fin 0 = 0 ∧
      (capture_step P pMan player b1 fin).getD (2 * P - fin) 0 = 0 ∧
      (capture_step P pMan player b1 fin).getD pMan 0 =
        b1.getD pMan 0 + b1.getD (2 * P - fin) 0 + 1) ∧
    (¬ (on_player_side P player fin ∧ b1.getD fin 0 = 1 ∧
          0 < b1.getD (2 * P - fin) 0) →
      capture_step P pMan player b1 fin = b1) := by
  constructor
  · rintro ⟨hside, hfin1, hpos⟩
    have hoppl : 2 * P - fin < b1.length := by
      have hf := on_side_facts hside
      omega
    exact capture_cells P pMan player b1 fin hside hfin1 hoppl hpos hman hlen
  · exact capture_noop P pMan player b1 fin

theorem C3_capture_condition_witness :
    (on_player_side 1 1 0 ∧ [1, 1, 4, 0].getD 0 0 = 1 ∧ 0 < [1, 1, 4, 0].getD 2 0 →
      (capture_step 1 1 1 [1, 1, 4, 0] 0).getD 0 0 = 0 ∧
      (capture_step 1 1 1 [1, 1, 4, 0] 0).getD 2 0 = 0 ∧
      (capture_step 1 1 1 [1, 1, 4, 0] 0).getD 1 0 =
        [1, 1, 4, 0].getD 1 0 + [1, 1, 4, 0].getD 2 0 + 1) ∧
    (¬ (on_player_side 1 1 0 ∧ [1, 1, 4, 0].getD 0 0 = 1 ∧
          0 < [1, 1, 4, 0].getD 2 0) →
      capture_step 1 1 1 [1, 1, 4, 0] 0 = [1, 1, 4, 0]) :=
  C3_capture_condition 1 1 1 [1, 1, 4, 0] 0 (by decide) (by decide)

/-- C4 counterexample: from the spec's board `[0,0,1,4,4,4,0 | 4,4,4,4,4,4,0]`
player 1's `play(3)` sows one stone into index 3, which held 4 stones, so the
landing cell ends with 5 stones and NO capture occurs: player 1's store
(index 6) stays 0 and the opposite cell (index 9) keeps its 4 stones. -/
theorem C4_capture_scenario_counterexample :
    Option.map (fun gg => gg.board.getD 6 0)
      ((⟨6, 4, [0, 0, 1, 4, 4, 4, 0, 4, 4, 4, 4, 4, 4, 0], 1, []⟩ :
        MancalaGame).play 3) = some 0 ∧
    Option.map (fun gg => gg.board.getD 3 0)
      ((⟨6, 4, [0, 0, 1, 4, 4, 4, 0, 4, 4, 4, 4, 4, 4, 0], 1, []⟩ :
        MancalaGame).play 3) = some 5 ∧
    Option.map (fun gg => gg.board.getD 9 0)
      ((⟨6, 4, [0, 0, 1, 4, 4, 4, 0, 4, 4, 4, 4, 4, 4, 0], 1, []⟩ :
        MancalaGame).play 3) = some 4 := by
  decide

/-- C4 (amended): from board `[0,0,1,4,4,4,0 | 4,4,4,4,4,4,0]` player 1's
`play(3)` performs no capture: the single stone lands on index 3 (which held
4 stones, now 5), the stores are unchanged and the turn passes to player 2. -/
theorem C4_no_capture :
    (⟨6, 4, [0, 0, 1, 4, 4, 4, 0, 4, 4, 4, 4, 4, 4, 0], 1, []⟩ :
        MancalaGame).play 3 =
      some ⟨6, 4, [0, 0, 0, 5, 4, 4, 0, 4, 4, 4, 4, 4, 4, 0], 2, [(1, 3)]⟩ := by
  decide

/-! ### The adversarial search engine (`ai.py`) -/

/-- Search values: integers extended with `-np.inf` (`⊥`) and `np.inf` (`⊤`). -/
abbrev EInt := WithBot (WithTop ℤ)

/-- An ordinary integer utility viewed as a search value. -/

def toE (n : ℤ) : EInt := ((n : WithTop ℤ) : EInt)

/-- The AIMA-style abstract game interface of `ai.py` (`class Game`): the
player to move, the legal actions, the transition function, the terminal
test and the player-parametrized utility. -/
structure AGame (S A : Type) where
  to_move : S → Nat
  actions : S → List A
  result : S → A → S
  terminal : S → Bool
  utility : S → Nat → Int

mutual
/-- `max_value`/`min_value` of `minimax_search`, with fuel
`n = depth - current_depth`: at fuel 0 the cutoff `current_depth >= depth`
fires and the evaluation is returned; otherwise terminal states evaluate and
interior nodes fold `max`/`min` over the children, starting from
`-np.inf`/`np.inf`. -/
def mmMax {S A : Type} (G : AGame S A) (f : S → Int) : Nat → S → EInt
  | 0, s => toE (f s)
  | n + 1, s =>
    if G.terminal s then toE (f s)
    else (G.actions s).foldl (fun v a => max v (mmMin G f n (G.result s a))) ⊥

def mmMin {S A : Type} (G : AGame S A) (f : S → Int) : Nat → S → EInt
  | 0, s => toE (f s)
  | n + 1, s =>
    if G.terminal s then toE (f s)
    else (G.actions s).foldl (fun v a => min v (mmMax G f n (G.result s a))) ⊤
end

/-- The action loop of `max_value` in `alpha_beta_search`: accumulate
`v = max(v, child)`, return early once `v >= beta`, and raise
`alpha = max(alpha, v)` otherwise. -/
def goMax {A : Type} (child : A → EInt → EInt → EInt) :
    List A → EInt → EInt → EInt → EInt
  | [], v, _, _ => v
  | a :: l, v, alpha, beta =>
    let v1 := max v (child a alpha beta)
    if beta ≤ v1 then v1 else goMax child l v1 (max alpha v1) beta

/-- The action loop of `min_value` in `alpha_beta_search`: accumulate
`v = min(v, child)`, return early once `v <= alpha`, and lower
`beta = min(beta, v)` otherwise. -/
def goMin {A : Type} (child : A → EInt → EInt → EInt) :
    List A → EInt → EInt → EInt → EInt
  | [], v, _, _ => v
  | a :: l, v, alpha, beta =>
    let v1 := min v (child a alpha beta)
    if v1 ≤ alpha then v1 else goMin child l v1 alpha (min beta v1)

mutual
/-- `max_value`/`min_value` of `alpha_beta_search` with the default cutoff
and evaluation, at fuel `n = depth - current_depth`. -/
def abMax {S A : Type} (G : AGame S A) (f : S → Int) : Nat → S → EInt → EInt → EInt
  | 0, s, _, _ => toE (f s)
  | n + 1, s, alpha, beta =>
    if G.terminal s then toE (f s)
    else goMax (fun a al be => abMin G f n (G.result s a) al be) (G.actions s) ⊥ alpha beta

def abMin {S A : Type} (G : AGame S A) (f : S → Int) : Nat → S → EInt → EInt → EInt
  | 0, s, _, _ => toE (f s)
  | n + 1, s, alpha, beta =>
    if G.terminal s then toE (f s)
    else goMin (fun a al be => abMax G f n (G.result s a) al be) (G.actions s) ⊤ alpha beta
end

/-- Root loop of `minimax_search`: `player = to_move(state)` fixes the
evaluation perspective, children are searched at `current_depth = 1`, and the
first strictly improving `(action, value)` pair is kept. -/
def mmRoot {S A : Type} (G : AGame S A) (d : Nat) (s : S) : Option A × EInt :=
  (G.actions s).foldl
    (fun p a =>
      let value := mmMin G (fun s1 => G.utility s1 (G.to_move s)) (d - 1) (G.result s a)
      if p.2 < value then (some a, value) else p)
    (none, ⊥)

/-- `minimax_search`: the best action at the root, or `none` when no
actions exist. -/
def minimax_search {S A : Type} (G : AGame S A) (d : Nat) (s : S) : Option A :=
  (mmRoot G d s).1

/-- Root loop of `alpha_beta_search`: `beta` stays `np.inf` at the root and
the running `best_score` is passed as `alpha` to every child search. -/
def abRoot {S A : Type} (G : AGame S A) (d : Nat) (s : S) : Option A × EInt :=
  (G.actions s).foldl
    (fun p a =>
      let v := abMin G (fun s1 => G.utility s1 (G.to_move s)) (d - 1) (G.result s a) p.2 ⊤
      if p.2 < v then (some a, v) else p)
    (none, ⊥)

/-- `alpha_beta_search`: the best action at the root, or `none` when no
actions exist. -/
def alpha_beta_search {S A : Type} (G : AGame S A) (d : Nat) (s : S) : Option A :=
  (abRoot G d s).1

/-- Fail-soft alpha-beta correctness bounds (Knuth-Moore): a search result
`r` for a node of true minimax value `t` under window `(alpha, beta)` is an
upper bound when it fails low, exact inside the window, and a lower bound
when it fails high. -/
def km (r t alpha beta : EInt) : Prop :=
  (r ≤ alpha → t ≤ r) ∧ (alpha < r → r < beta → r = t) ∧ (beta ≤ r → r ≤ t)

theorem km_self (r alpha beta : EInt) : km r r alpha beta :=
  ⟨fun _ => le_refl r, fun _ _ => rfl, fun _ => le_refl r⟩


theorem toE_lt_top (n : ℤ) : toE n < ⊤ := by
  unfold toE
  exact WithBot.coe_lt_coe.mpr (WithTop.coe_lt_top n)

theorem bot_lt_toE (n : ℤ) : (⊥ : EInt) < toE n := by
  unfold toE
  exact WithBot.bot_lt_coe _

theorem le_foldl_max {A : Type} (t : A → EInt) (l : List A) (x : EInt) :
    x ≤ l.foldl (fun v a => max v (t a)) x := by
  induction l generalizing x with
  | nil => exact le_refl x
  | cons a l ih => exact le_trans (le_max_left _ _) (ih _)

theorem foldl_min_le {A : Type} (t : A → EInt) (l : List A) (x : EInt) :
    l.foldl (fun v a => min v (t a)) x ≤ x := by
  induction l generalizing x with
  | nil => exact le_refl x
  | cons a l ih => exact le_trans (ih _) (min_le_left _ _)

theorem goMax_spec {A : Type} (child : A → EInt → EInt → EInt) (t : A → EInt)
    (alpha0 beta : EInt) :
    ∀ l : List A, (∀ a ∈ l, ∀ al be : EInt, al < be → km (child a al be) (t a) al be) →
    ∀ v p alpha : EInt, alpha < beta → alpha = max alpha0 v → p ≤ v →
      v ≤ max alpha0 p → v < beta →
      km (goMax child l v alpha beta) (l.foldl (fun x a => max x (t a)) p) alpha0 beta := by
  intro l
  induction l with
  | nil =>
    intro _ v p alpha hab ha hpv hvp hvb
    simp only [goMax, List.foldl_nil]
    refine ⟨fun _ => hpv, ?_, fun hbv => absurd (lt_of_lt_of_le hvb hbv) (lt_irrefl _)⟩
    intro h1 _
    rcases le_total alpha0 p with hc | hc
    · exact le_antisymm (by rwa [max_eq_right hc] at hvp) hpv
    · exact absurd h1 (not_lt.mpr (by rwa [max_eq_left hc] at hvp))
  | cons a l ih =>
    intro hch v p alpha hab ha hpv hvp hvb
    have hkm := hch a (List.mem_cons_self a l) alpha beta hab
    have halpha0 : alpha0 ≤ alpha := ha ▸ le_max_left alpha0 v
    rw [goMax, List.foldl_cons]
    by_cases hprune : beta ≤ max v (child a alpha beta)
    · rw [if_pos hprune]
      have hwb : beta ≤ child a alpha beta := by
        rcases max_cases v (child a alpha beta) with ⟨he, _⟩ | ⟨he, _⟩
        · rw [he] at hprune
          exact absurd (lt_of_lt_of_le hvb hprune) (lt_irrefl _)
        · rwa [he] at hprune
      have hmaxw : max v (child a alpha beta) = child a alpha beta :=
        max_eq_right (le_trans (le_of_lt hvb) hwb)
      refine ⟨?_, ?_, ?_⟩
      · intro hle
        exact absurd (lt_of_le_of_lt (le_trans hprune (le_trans hle halpha0)) hab)
          (lt_irrefl _)
      · intro _ h2
        exact absurd (lt_of_lt_of_le h2 hprune) (lt_irrefl _)
      · intro _
        rw [hmaxw]
        exact le_trans (hkm.2.2 hwb) (le_trans (le_max_right p (t a)) (le_foldl_max t l _))
    · rw [if_neg hprune]
      have hv1b : max v (child a alpha beta) < beta := not_le.mp hprune
      have hwltb : child a alpha beta < beta := lt_of_le_of_lt (le_max_right _ _) hv1b
      have hta : t a ≤ max v (child a alpha beta) := by
        rcases le_or_lt (child a alpha beta) alpha with hc | hc
        · exact le_trans (hkm.1 hc) (le_max_right _ _)
        · rw [← hkm.2.1 hc hwltb]
          exact le_max_right _ _
      have hp1 : max p (t a) ≤ max v (child a alpha beta) :=
        max_le (le_trans hpv (le_max_left _ _)) hta
      have hv1p : max v (child a alpha beta) ≤ max alpha0 (max p (t a)) := by
        apply max_le
        · exact le_trans hvp (max_le_max (le_refl alpha0) (le_max_left p (t a)))
        · rcases le_or_lt (child a alpha beta) alpha with hc | hc
          · refine le_trans hc ?_
            rw [ha]
            exact max_le (le_max_left _ _)
              (le_trans hvp (max_le_max (le_refl alpha0) (le_max_left p (t a))))
          · rw [← hkm.2.1 hc hwltb]
            exact le_trans (le_max_right _ _) (le_max_right _ _)
      have ha1 : max alpha (max v (child a alpha beta)) =
          max alpha0 (max v (child a alpha beta)) := by
        rw [ha, max_assoc]
        congr 1
        exact max_eq_right (le_max_left v _)
      have hab1 : max alpha (max v (child a alpha beta)) < beta := max_lt hab hv1b
      exact ih (fun a1 h1 al be hh => hch a1 (List.mem_cons_of_mem a h1) al be hh)
        (max v (child a alpha beta)) (max p (t a)) (max alpha (max v (child a alpha beta)))
        hab1 ha1 hp1 hv1p hv1b

theorem goMin_spec {A : Type} (child : A → EInt → EInt → EInt) (t : A → EInt)
    (alpha beta0 : EInt) :
    ∀ l : List A, (∀ a ∈ l, ∀ al be : EInt, al < be → km (child a al be) (t a) al be) →
    ∀ v p beta : EInt, alpha < beta → beta = min beta0 v → v ≤ p →
      min beta0 p ≤ v → alpha < v →
      km (goMin child l v alpha beta) (l.foldl (fun x a => min x (t a)) p) alpha beta0 := by
  intro l
  induction l with
  | nil =>
    intro _ v p beta hab hb hvp hpv hav
    simp only [goMin, List.foldl_nil]
    refine ⟨fun hle => absurd (lt_of_lt_of_le hav hle) (lt_irrefl _), ?_, fun _ => hvp⟩
    intro _ h2
    rcases le_total beta0 p with hc | hc
    · exact absurd h2 (not_lt.mpr (by rwa [min_eq_left hc] at hpv))
    · exact le_antisymm hvp (by rwa [min_eq_right hc] at hpv)
  | cons a l ih =>
    intro hch v p beta hab hb hvp hpv hav
    have hkm := hch a (List.mem_cons_self a l) alpha beta hab
    have hbeta0 : beta ≤ beta0 := hb ▸ min_le_left beta0 v
    rw [goMin, List.foldl_cons]
    by_cases hprune : min v (child a alpha beta) ≤ alpha
    · rw [if_pos hprune]
      have hwa : child a alpha beta ≤ alpha := by
        rcases min_cases v (child a alpha beta) with ⟨he, _⟩ | ⟨he, _⟩
        · rw [he] at hprune
          exact absurd (lt_of_lt_of_le hav hprune) (lt_irrefl _)
        · rwa [he] at hprune
      have hminw : min v (child a alpha beta) = child a alpha beta :=
        min_eq_right (le_trans hwa (le_of_lt hav))
      refine ⟨?_, ?_, ?_⟩
      · intro _
        rw [hminw]
        exact le_trans (le_trans (foldl_min_le t l _) (min_le_right p (t a))) (hkm.1 hwa)
      · intro h1 _
        exact absurd (lt_of_lt_of_le h1 hprune) (lt_irrefl _)
      · intro hbv
        exact absurd (lt_of_lt_of_le (lt_of_le_of_lt (le_trans hbv hprune) hab) hbeta0)
          (lt_irrefl _)
    · rw [if_neg hprune]
      have hav1 : alpha < min v (child a alpha beta) := not_le.mp hprune
      have hwga : alpha < child a alpha beta := lt_of_lt_of_le hav1 (min_le_right _ _)
      have hta : min v (child a alpha beta) ≤ t a := by
        rcases le_or_lt beta (child a alpha beta) with hc | hc
        · exact le_trans (min_le_right _ _) (hkm.2.2 hc)
        · rw [← hkm.2.1 hwga hc]
          exact min_le_right _ _
      have hp1 : min v (child a alpha beta) ≤ min p (t a) :=
        le_min (le_trans (min_le_left _ _) hvp) hta
      have hv1p : min beta0 (min p (t a)) ≤ min v (child a alpha beta) := by
        apply le_min
        · exact le_trans (min_le_min (le_refl beta0) (min_le_left p (t a))) hpv
        · rcases le_or_lt beta (child a alpha beta) with hc | hc
          · refine le_trans ?_ hc
            rw [hb]
            exact le_min (min_le_left _ _)
              (le_trans (min_le_min (le_refl beta0) (min_le_left p (t a))) hpv)
          · rw [← hkm.2.1 hwga hc]
            exact le_trans (min_le_right _ _) (min_le_right _ _)
      have hb1 : min beta (min v (child a alpha beta)) =
          min beta0 (min v (child a alpha beta)) := by
        rw [hb, min_assoc]
        congr 1
        exact min_eq_right (min_le_left v _)
      have hab1 : alpha < min beta (min v (child a alpha beta)) := lt_min hab hav1
      exact ih (fun a1 h1 al be hh => hch a1 (List.mem_cons_of_mem a h1) al be hh)
        (min v (child a alpha beta)) (min p (t a)) (min beta (min v (child a alpha beta)))
        hab1 hb1 hp1 hv1p hav1

/-- Every alpha-beta node value satisfies the Knuth-Moore bounds relative
to the minimax value of the same node, for any valid window. -/
theorem km_ab {S A : Type} (G : AGame S A) (f : S → Int) :
    ∀ n : Nat,
      (∀ s alpha beta, alpha < beta →
        km (abMax G f n s alpha beta) (mmMax G f n s) alpha beta) ∧
      (∀ s alpha beta, alpha < beta →
        km (abMin G f n s alpha beta) (mmMin G f n s) alpha beta) := by
  intro n
  induction n with
  | zero =>
    exact ⟨fun s alpha beta _ => km_self (toE (f s)) alpha beta,
           fun s alpha beta _ => km_self (toE (f s)) alpha beta⟩
  | succ n ih =>
    constructor
    · intro s alpha beta hab
      simp only [abMax, mmMax]
      by_cases ht : G.terminal s
      · rw [if_pos ht, if_pos ht]
        exact km_self _ _ _
      · rw [if_neg ht, if_neg ht]
        exact goMax_spec (fun a al be => abMin G f n (G.result s a) al be)
          (fun a => mmMin G f n (G.result s a)) alpha beta (G.actions s)
          (fun a _ al be h => ih.2 (G.result s a) al be h)
          ⊥ ⊥ alpha hab (max_eq_left bot_le).symm (le_refl ⊥) bot_le
          (lt_of_le_of_lt bot_le hab)
    · intro s alpha beta hab
      simp only [abMin, mmMin]
      by_cases ht : G.terminal s
      · rw [if_pos ht, if_pos ht]
        exact km_self _ _ _
      · rw [if_neg ht, if_neg ht]
        exact goMin_spec (fun a al be => abMax G f n (G.result s a) al be)
          (fun a => mmMax G f n (G.result s a)) alpha beta (G.actions s)
          (fun a _ al be h => ih.1 (G.result s a) al be h)
          ⊤ ⊤ beta hab (min_eq_left le_top).symm (le_refl ⊤) le_top
          (lt_of_lt_of_le hab le_top)

/-- The two root loops stay in lockstep: with the same starting pair, the
alpha-beta root fold and the minimax root fold produce the same best pair. -/
theorem root_fold_eq {S A : Type} (G : AGame S A) (f : S → Int) (n : Nat) (s : S) :
    ∀ (l : List A) (p : Option A × EInt),
      l.foldl (fun p a =>
        if p.2 < abMin G f n (G.result s a) p.2 ⊤
        then (some a, abMin G f n (G.result s a) p.2 ⊤) else p) p =
      l.foldl (fun p a =>
        if p.2 < mmMin G f n (G.result s a)
        then (some a, mmMin G f n (G.result s a)) else p) p := by
  intro l
  induction l with
  | nil => intro p; rfl
  | cons a l ih =>
    intro p
    simp only [List.foldl_cons]
    have hstep : (if p.2 < abMin G f n (G.result s a) p.2 ⊤
          then (some a, abMin G f n (G.result s a) p.2 ⊤) else p) =
        (if p.2 < mmMin G f n (G.result s a)
          then (some a, mmMin G f n (G.result s a)) else p) := by
      rcases lt_or_eq_of_le (le_top : p.2 ≤ ⊤) with htop | htop
      · have hkm := (km_ab G f n).2 (G.result s a) p.2 ⊤ htop
        by_cases hup : p.2 < abMin G f n (G.result s a) p.2 ⊤
        · rcases lt_or_eq_of_le (le_top : abMin G f n (G.result s a) p.2 ⊤ ≤ ⊤)
            with hwt | hwt
          · have he := hkm.2.1 hup hwt
            rw [he] at hup ⊢
          · have he : abMin G f n (G.result s a) p.2 ⊤ = mmMin G f n (G.result s a) :=
              le_antisymm (hkm.2.2 hwt.ge) (le_trans le_top hwt.ge)
            rw [he] at hup ⊢
        · have hwle := not_lt.mp hup
          have htle : mmMin G f n (G.result s a) ≤ p.2 := le_trans (hkm.1 hwle) hwle
          rw [if_neg hup, if_neg (not_lt.mpr htle)]
      · have h1 : ¬ p.2 < abMin G f n (G.result s a) p.2 ⊤ := by
          rw [htop]
          exact not_lt.mpr le_top
        have h2 : ¬ p.2 < mmMin G f n (G.result s a) := by
          rw [htop]
          exact not_lt.mpr le_top
        rw [if_neg h1, if_neg h2]
    rw [hstep]
    exact ih _

theorem ab_root_eq_mm_root {S A : Type} (G : AGame S A) (d : Nat) (s : S) :
    abRoot G d s = mmRoot G d s :=
  root_fold_eq G (fun s1 => G.utility s1 (G.to_move s)) (d - 1) s (G.actions s) (none, ⊥)

/-- C2: at every state and depth, `alpha_beta_search` and `minimax_search`
agree at the root: both keep the first strictly improving action, so they
return the same move and the same backed-up root value — in particular the
value of the move returned by alpha-beta equals the value of the move
returned by minimax at the same depth. -/
theorem C2_alpha_beta_equals_minimax {S A : Type} (G : AGame S A) (d : Nat) (s : S) :
    alpha_beta_search G d s = minimax_search G d s ∧
    (abRoot G d s).2 = (mmRoot G d s).2 :=
  ⟨congrArg Prod.fst (ab_root_eq_mm_root G d s),
   congrArg Prod.snd (ab_root_eq_mm_root G d s)⟩

/-- C9: when the list of legal actions at the root is empty (terminal or
no-move state), both searches return no move instead of failing. -/
theorem C9_empty_actions_return_none {S A : Type} (G : AGame S A) (d : Nat) (s : S)
    (h : G.actions s = []) :
    minimax_search G d s = none ∧ alpha_beta_search G d s = none := by
  unfold minimax_search mmRoot alpha_beta_search abRoot
  rw [h]
  exact ⟨rfl, rfl⟩

/-! ### The `MancalaAI` adapter -/

/-- The `GameState` namedtuple of `ai.py`. -/
structure GameState where
  to_move : Nat
  utility : Int
  board : MancalaGame
  moves : List Nat
deriving DecidableEq

/-- `MancalaAI._calculate_utility`: `p1_score - p2_score`. -/
def calculate_utility (g : MancalaGame) : Int :=
  (g.board.getD g.pits_per_player 0 : Int) -
    (g.board.getD (2 * g.pits_per_player + 1) 0 : Int)

/-- `MancalaAI.result`: play the move on a copy of the board and repackage
the new state.  The search only calls this on legal actions of non-terminal
states, where `play` succeeds (in Python an illegal call would raise). -/
def mancala_result (s : GameState) (m : Nat) : GameState :=
  match s.board.play m with
  | some g1 => ⟨g1.current_player, calculate_utility g1, g1, g1.get_valid_moves⟩
  | none => s

/-- The `MancalaAI` adapter: the concrete instance of the abstract game
interface that both searches operate on. -/
def mancalaAI : AGame GameState Nat where
  to_move s := s.to_move
  actions s := if s.board.is_terminal then [] else s.board.get_valid_moves
  result := mancala_result
  terminal s := decide s.board.is_terminal
  utility s player :=
    if player = 1 then calculate_utility s.board else - calculate_utility s.board

/-- `MancalaAI.__post_init__`: the initial search state. -/
def mancala_initial (P S : Nat) : GameState :=
  ⟨1, 0, mkGame P S, (mkGame P S).get_valid_moves⟩

theorem C9_empty_actions_return_none_witness :
    minimax_search mancalaAI 4 (mancala_initial 6 0) = none ∧
    alpha_beta_search mancalaAI 4 (mancala_initial 6 0) = none :=
  C9_empty_actions_return_none mancalaAI 4 (mancala_initial 6 0) (by decide)
